import Mathlib

/-!
# Verification of the TalkNet-ASD pipeline (`talknet_asd/asd_pipeline.py`)

A shallow embedding of the computational core of the active-speaker
detection pipeline, together with theorems settling the specification
claims.  Machine floats are modelled with exact rationals (`ℚ`), Python
integers with `ℤ`/`ℕ`, Python lists with `List`, and fallible stages with
explicit error values (error codes are `ℕ`).  Unbounded loops are embedded
as structurally recursive functions over an explicit fuel argument; the
call sites pass enough fuel for the loop to run to completion, mirroring
the Python `while True` / `for` loops.

The file has two parts: first all definitions (translated from
`src/talknet_asd/asd_pipeline.py`), then the theorems.
-/

namespace TalkNetASD

/-- An axis-aligned bounding box `[x1, y1, x2, y2]` as used throughout the
pipeline (detections store `bbox = [x, y, x + w, y + h]`). -/
structure Box where
  x1 : ℚ
  y1 : ℚ
  x2 : ℚ
  y2 : ℚ
deriving DecidableEq

/-- One face detection, corresponding to the dicts
`{"frame": fidx, "bbox": bbox, "conf": confidence}` produced by
`FaceProcessor.detect_faces`. -/
structure Face where
  frame : ℤ
  bbox : Box
  conf : ℚ
deriving DecidableEq

/-- Intersection area of two boxes, the quantity `interArea` computed in
`FaceProcessor.bb_intersection_over_union`. -/
def inter_area (boxA boxB : Box) : ℚ :=
  max 0 (min boxA.x2 boxB.x2 - max boxA.x1 boxB.x1) *
    max 0 (min boxA.y2 boxB.y2 - max boxA.y1 boxB.y1)

/-- Area `(box[2] - box[0]) * (box[3] - box[1])` of a box. -/
def box_area (b : Box) : ℚ := (b.x2 - b.x1) * (b.y2 - b.y1)

/-- `FaceProcessor.bb_intersection_over_union(boxA, boxB, evalCol=False)`:
standard intersection over union of two axis-aligned boxes; in the
`evalCol` variant the intersection is divided by box A's area alone. -/
def bb_intersection_over_union (boxA boxB : Box) (evalCol : Bool := false) : ℚ :=
  let xA := max boxA.x1 boxB.x1
  let yA := max boxA.y1 boxB.y1
  let xB := min boxA.x2 boxB.x2
  let yB := min boxA.y2 boxB.y2
  let interArea := max 0 (xB - xA) * max 0 (yB - yA)
  let boxAArea := (boxA.x2 - boxA.x1) * (boxA.y2 - boxA.y1)
  let boxBArea := (boxB.x2 - boxB.x1) * (boxB.y2 - boxB.y1)
  if evalCol then interArea / boxAArea
  else interArea / (boxAArea + boxBArea - interArea)

/-- A box with strictly positive width and height. -/
def PosBox (b : Box) : Prop := 0 < b.x2 - b.x1 ∧ 0 < b.y2 - b.y1

/-- Two boxes whose interiors do not overlap (their intersection rectangle
is degenerate in at least one axis). -/
def NonOverlapping (a b : Box) : Prop :=
  min a.x2 b.x2 ≤ max a.x1 b.x1 ∨ min a.y2 b.y2 ≤ max a.y1 b.y1

/-- `numpy.mean` of a list of rationals (`sum / length`; the empty list,
which numpy maps to NaN, is mapped to `0` — no theorem in this file relies
on the empty case). -/
def np_mean (l : List ℚ) : ℚ := l.sum / l.length

/-- The score smoothing performed per rendered face in `visualization`:
`s = score[max(fidx - 2, 0) : min(fidx + 3, len(score) - 1)]` followed by
`numpy.mean(s)`.  A Python slice `score[lo:hi]` with `0 ≤ lo` and
`hi ≤ len(score)` is `(score.drop lo).take (hi - lo)`; for an empty
`score`, `len(score) - 1 = -1` and `score[lo:-1]` is also empty, matching
the `toNat` clamping below. -/
def smooth_score (score : List ℚ) (fidx : ℕ) : ℚ :=
  np_mean ((score.drop (max ((fidx : ℤ) - 2) 0).toNat).take
    (min ((fidx : ℤ) + 3) ((score.length : ℤ) - 1) - max ((fidx : ℤ) - 2) 0).toNat)

/-- Lower index `max(fidx - 2, 0)` of the smoothing window. -/
def win_lo (fidx : ℕ) : ℕ := (max ((fidx : ℤ) - 2) 0).toNat

/-- Upper (exclusive) index `min(fidx + 3, len(score) - 1)` of the
smoothing window. -/
def win_hi (score : List ℚ) (fidx : ℕ) : ℤ :=
  min ((fidx : ℤ) + 3) ((score.length : ℤ) - 1)

/-- Number of samples in the smoothing window. -/
def win_len (score : List ℚ) (fidx : ℕ) : ℕ :=
  (win_hi score fidx - max ((fidx : ℤ) - 2) 0).toNat

/-- Python's built-in `round` on a rational value: round half to even
(banker's rounding), as used in `evaluate_network` for
`int(round(length * 100))` and `int(round(length * 25))`. -/
def py_round_half_even (q : ℚ) : ℤ :=
  let f := ⌊q⌋
  let r := q - f
  if r < 1 / 2 then f
  else if 1 / 2 < r then f + 1
  else if Even f then f else f + 1

/-- The length-alignment step of `ActiveSpeakerDetector.evaluate_network`:
`length = min(audio_feature.shape[0] / 100, video_feature.shape[0] / 25)`,
then `audio_feature = audio_feature[: int(round(length * 100))]` and
`video_feature = video_feature[: int(round(length * 25))]`. -/
def truncate_features {α β : Type} (audio_feature : List α) (video_feature : List β) :
    List α × List β :=
  let length : ℚ :=
    min ((audio_feature.length : ℚ) / 100) ((video_feature.length : ℚ) / 25)
  (audio_feature.take (py_round_half_even (length * 100)).toNat,
   video_feature.take (py_round_half_even (length * 25)).toNat)

/-- Inserting one element into a Python set, modelled as a duplicate-free
list in insertion order (for the small-integer elements used here, CPython
iteration order agrees with value order, which is also insertion order for
the literal below). -/
def py_set_add (s : List ℕ) (x : ℕ) : List ℕ := if x ∈ s then s else s ++ [x]

/-- Evaluation of a Python set literal: elements are inserted left to
right, duplicates collapse. -/
def py_set_of_list (l : List ℕ) : List ℕ := l.foldl py_set_add []

/-- `duration_set = {1, 1, 1, 2, 2, 2, 3, 3, 4, 5, 6}` from
`ActiveSpeakerDetector.evaluate_network` — a Python *set* literal, so the
repeated elements collapse. -/
def duration_set : List ℕ := py_set_of_list [1, 1, 1, 2, 2, 2, 3, 3, 4, 5, 6]

/-- A raw face candidate as returned by `DeepFace.extract_faces`: the
`facial_area` dict (modelled as `none` when any of the keys
`x, y, w, h` is missing) and the optional `confidence` value
(`face.get("confidence", 0)` defaults to `0`). -/
structure RawFace where
  area : Option (ℚ × ℚ × ℚ × ℚ)
  confidence : Option ℚ
deriving DecidableEq

/-- The per-frame filtering loop of `FaceProcessor.detect_faces`: skip
faces with missing `facial_area` keys, confidence below `0.5`, or
non-positive width/height; keep `{"frame": fidx, "bbox": [x, y, x+w, y+h],
"conf": confidence}`. -/
def detect_frame (fidx : ℤ) (faces : List RawFace) : List Face :=
  faces.filterMap (fun face =>
    match face.area with
    | none => none
    | some (x, y, w, h) =>
      if face.confidence.getD 0 < 1 / 2 then none
      else if w ≤ 0 ∨ h ≤ 0 then none
      else some { frame := fidx, bbox := ⟨x, y, x + w, y + h⟩,
                  conf := face.confidence.getD 0 })

/-- The frame loop of `FaceProcessor.detect_faces`.  Each extracted frame
either yields a list of raw faces or raises (`Except.error`).  On an
exception the handler prints and executes `continue`, which skips the
`detections.append(frame_detections)` statement — so the failing frame
contributes no entry at all. -/
def detect_faces_go : ℤ → List (Except ℕ (List RawFace)) → List (List Face)
  | _, [] => []
  | fidx, Except.error _ :: rest => detect_faces_go (fidx + 1) rest
  | fidx, Except.ok faces :: rest =>
      detect_frame fidx faces :: detect_faces_go (fidx + 1) rest

/-- `FaceProcessor.detect_faces` over the sorted frame list, starting at
frame index `0`. -/
def detect_faces (frames : List (Except ℕ (List RawFace))) : List (List Face) :=
  detect_faces_go 0 frames

/-- Abstract state of a pipeline run's working directory
(`self.save_path` and everything below it): `none` when the directory
does not exist, `some files` when it exists and holds `files`
(file names are modelled as `ℕ`). -/
structure PipeState where
  work : Option (List ℕ)
deriving DecidableEq

/-- `Pipeline._cleanup_cache`: if the save path exists, remove it and all
its contents (`shutil.rmtree`). -/
def cleanup_cache (s : PipeState) : PipeState :=
  match s.work with
  | some _ => ⟨none⟩
  | none => s

/-- One pipeline stage: it transforms the working-directory state and
either succeeds (`none`) or raises an exception (`some errorCode`),
leaving whatever partial state it produced. -/
def Stage : Type := PipeState → PipeState × Option ℕ

/-- The body of the `try` block: run the stages in order, stopping at the
first exception. -/
def run_try (stages : List Stage) (s : PipeState) : PipeState × Option ℕ :=
  match stages with
  | [] => (s, none)
  | st :: rest =>
    let r := st s
    match r.2 with
    | some e => (r.1, some e)
    | none => run_try rest r.1

/-- `Pipeline.run`: run all stages inside `try`; on an exception, call
`self._cleanup_cache()` and re-raise the exception to the caller. -/
def pipeline_run (stages : List Stage) (s : PipeState) : PipeState × Option ℕ :=
  let r := run_try stages s
  match r.2 with
  | some e => (cleanup_cache r.1, some e)
  | none => r

/-- `Pipeline._setup_paths`: delete any previous state for the save path
and create the (empty) working directories. -/
def setup_paths (_ : PipeState) : PipeState := ⟨some []⟩

/-- The tail of `Pipeline.__init__`: after `_setup_paths`, construct the
video preprocessor, face processor and speaker detector inside `try`; on
an exception, call `self._cleanup_cache()` and re-raise. -/
def pipeline_init (ctors : List Stage) (s : PipeState) : PipeState × Option ℕ :=
  let r := run_try ctors (setup_paths s)
  match r.2 with
  | some e => (cleanup_cache r.1, some e)
  | none => r

/-- The tracker parameters from `Pipeline.__init__` used by
`FaceProcessor.track_faces` / `track_shot` (defaults: `num_failed_det =
10`, `min_track = 10`, `min_face_size = 1`). -/
structure AssocArgs where
  num_failed_det : ℕ
  min_track : ℕ
  min_face_size : ℚ
deriving DecidableEq

/-- `iouThres = 0.5` from `FaceProcessor.track_shot`. -/
def iou_thres : ℚ := 1 / 2

/-- The inner `for face in frameFaces` loop of `FaceProcessor.track_shot`,
with CPython semantics made explicit: the `for` statement walks an
internal index `i` over the *mutating* list, and `frameFaces.remove(face)`
removes the first element equal to `face` (`List.erase`), so after a
removal the element that slides into position `i` is skipped.  The `Bool`
result records whether the loop ended via `break` (gap larger than
`num_failed_det`).  `fuel` bounds the number of iterations; since `i`
grows by one per step, `faces.length + 1` is always enough. -/
def shot_frame_loop (args : AssocArgs) :
    ℕ → List Face → List Face → ℕ → List Face × List Face × Bool
  | 0, track, faces, _ => (track, faces, false)
  | fuel + 1, track, faces, i =>
    if h : i < faces.length then
      let face := faces.get ⟨i, h⟩
      if htr : track = [] then
        shot_frame_loop args fuel (track ++ [face]) (faces.erase face) (i + 1)
      else
        let last := track.getLast htr
        if face.frame - last.frame ≤ (args.num_failed_det : ℤ) then
          if iou_thres < bb_intersection_over_union face.bbox last.bbox then
            shot_frame_loop args fuel (track ++ [face]) (faces.erase face) (i + 1)
          else
            shot_frame_loop args fuel track faces (i + 1)
        else (track, faces, true)
    else (track, faces, false)

/-- The outer `for frameFaces in sceneFaces` loop of one pass of
`FaceProcessor.track_shot`: scan every frame's detection list in order
(a `break` in the inner loop only leaves that frame's list), threading
the candidate track and returning the mutated scene. -/
def shot_scan (args : AssocArgs) : List Face → List (List Face) → List Face × List (List Face)
  | track, [] => (track, [])
  | track, frameFaces :: rest =>
    let r := shot_frame_loop args (frameFaces.length + 1) track frameFaces 0
    let r2 := shot_scan args r.1 rest
    (r2.1, r.2.1 :: r2.2)

/-- `scipy.interpolate.interp1d(xs, ys)` evaluated at an in-range query
point `q`: linear interpolation on the segment containing `q`.  (All
queries issued by `track_shot` lie between the first and last sample; the
theorems below only use sample sequences with strictly increasing `xs`,
where this is exact piecewise-linear interpolation.) -/
def interp_at : List (ℤ × ℚ) → ℤ → ℚ
  | [], _ => 0
  | [(_, y)], _ => y
  | (x1, y1) :: (x2, y2) :: rest, q =>
    if q ≤ x2 then y1 + (y2 - y1) * ((q : ℚ) - (x1 : ℚ)) / ((x2 : ℚ) - (x1 : ℚ))
    else interp_at ((x2, y2) :: rest) q

/-- `numpy.arange(a, a + n)` over the integers. -/
def arange_go (a : ℤ) : ℕ → List ℤ
  | 0 => []
  | n + 1 => a :: arange_go (a + 1) n

/-- `numpy.arange(a, b + 1)`: the integers from `a` to `b` inclusive
(empty when `b < a`). -/
def arangeZ (a b : ℤ) : List ℤ := arange_go a (b + 1 - a).toNat

/-- An emitted track dict `{"frame": frameI, "bbox": bboxesI,
"confidence": confidencesI}` from `FaceProcessor.track_shot`. -/
structure TrackOut where
  frame : List ℤ
  bbox : List Box
  confidence : List ℚ
deriving DecidableEq

/-- The interpolation step of `FaceProcessor.track_shot`:
`frameI = numpy.arange(frameNum[0], frameNum[-1] + 1)`, each bbox
coordinate and the confidence interpolated with `interp1d` onto
`frameI`. -/
def interp_track (track : List Face) : TrackOut :=
  let frameNum : List ℤ := track.map (·.frame)
  let frameI : List ℤ := arangeZ (frameNum.headD 0) (frameNum.getLastD 0)
  { frame := frameI
    bbox := frameI.map (fun q =>
      { x1 := interp_at (track.map (fun f => (f.frame, f.bbox.x1))) q
        y1 := interp_at (track.map (fun f => (f.frame, f.bbox.y1))) q
        x2 := interp_at (track.map (fun f => (f.frame, f.bbox.x2))) q
        y2 := interp_at (track.map (fun f => (f.frame, f.bbox.y2))) q })
    confidence := frameI.map (fun q =>
      interp_at (track.map (fun f => (f.frame, f.conf))) q) }

/-- The final size filter of `FaceProcessor.track_shot`:
`max(mean(bboxesI[:,2] - bboxesI[:,0]), mean(bboxesI[:,3] - bboxesI[:,1]))
> min_face_size`. -/
def track_size_ok (args : AssocArgs) (t : TrackOut) : Bool :=
  decide (args.min_face_size <
    max (np_mean (t.bbox.map (fun b => b.x2 - b.x1)))
      (np_mean (t.bbox.map (fun b => b.y2 - b.y1))))

/-- The `while True` loop of `FaceProcessor.track_shot`: repeatedly scan
the (mutating) scene for one greedy track; stop when a scan yields the
empty track; keep a scanned track only when `len(track) > min_track` and
the interpolated track passes the size filter.  Returns the emitted
tracks, the raw per-pass tracks (before the length/size filters), and the
final mutated scene.  Each productive pass removes at least the seed
detection from the scene, so `total_faces scene + 1` fuel always runs the
loop to completion. -/
def track_shot_loop (args : AssocArgs) :
    ℕ → List (List Face) → List TrackOut × List (List Face) × List (List Face)
  | 0, sceneFaces => ([], [], sceneFaces)
  | fuel + 1, sceneFaces =>
    let r := shot_scan args [] sceneFaces
    if r.1 = [] then ([], [], r.2)
    else
      let rest := track_shot_loop args fuel r.2
      let emitted : List TrackOut :=
        if args.min_track < r.1.length then
          let t := interp_track r.1
          if track_size_ok args t then [t] else []
        else []
      (emitted ++ rest.1, r.1 :: rest.2.1, rest.2.2)

/-- Total number of detections in a scene. -/
def total_faces (sceneFaces : List (List Face)) : ℕ :=
  (sceneFaces.map List.length).sum

/-- `FaceProcessor.track_shot` run to completion, exposing all three
results of the loop. -/
def track_shot_full (args : AssocArgs) (sceneFaces : List (List Face)) :
    List TrackOut × List (List Face) × List (List Face) :=
  track_shot_loop args (total_faces sceneFaces + 1) sceneFaces

/-- The tracks returned by `FaceProcessor.track_shot`. -/
def track_shot (args : AssocArgs) (sceneFaces : List (List Face)) : List TrackOut :=
  (track_shot_full args sceneFaces).1

/-- The raw (pre-filter) track of every pass of the `while True` loop. -/
def track_shot_passes (args : AssocArgs) (sceneFaces : List (List Face)) :
    List (List Face) :=
  (track_shot_full args sceneFaces).2.1

/-- The scene lists after `track_shot` has consumed its detections (the
Python code mutates the shared inner lists in place). -/
def track_shot_final_scene (args : AssocArgs) (sceneFaces : List (List Face)) :
    List (List Face) :=
  (track_shot_full args sceneFaces).2.2

/-- `FaceProcessor.track_faces`: for every shot `(start, end)` with
`end - start >= min_track`, run `track_shot` on
`face_detections[start : end + 1]` and collect the tracks.  Python slices
copy the outer list but share the inner per-frame lists, which
`track_shot` mutates in place; this is modelled by writing the mutated
slice back into the detection list. -/
def track_faces_go (args : AssocArgs) :
    List (ℕ × ℕ) → List (List Face) → List TrackOut
  | [], _ => []
  | (s, e) :: rest, dets =>
    if (args.min_track : ℤ) ≤ (e : ℤ) - (s : ℤ) then
      let slice := (dets.drop s).take (e + 1 - s)
      let dets2 := dets.take s ++ track_shot_final_scene args slice ++
        dets.drop (s + slice.length)
      track_shot args slice ++ track_faces_go args rest dets2
    else
      track_faces_go args rest dets

/-- `FaceProcessor.track_faces` over the scene list (each scene given by
its `(start.frame_num, end.frame_num)` pair). -/
def track_faces (args : AssocArgs) (scenes : List (ℕ × ℕ))
    (face_detections : List (List Face)) : List TrackOut :=
  track_faces_go args scenes face_detections

/-- No two detections within one frame overlap with IOU above the
association threshold (real detectors enforce this via non-maximum
suppression).  Recorded pairwise in both argument orders. -/
def LowOverlap (faces : List Face) : Prop :=
  faces.Pairwise (fun a b =>
    bb_intersection_over_union a.bbox b.bbox ≤ iou_thres ∧
    bb_intersection_over_union b.bbox a.bbox ≤ iou_thres)

/-- Well-formedness of one frame's detection list for frame number `c`:
no duplicate detections, every detection carries frame number `c`, and no
two detections of the frame overlap above the IOU threshold. -/
def GoodFrame (c : ℤ) (faces : List Face) : Prop :=
  faces.Nodup ∧ (∀ f ∈ faces, f.frame = c) ∧ LowOverlap faces

/-- Well-formedness of a scene slice whose first list holds the
detections of frame `c`: position `k` holds well-formed detections of
frame `c + k` (this is exactly how `detect_faces` and the shot slicing
lay out detections). -/
def SceneWF : ℤ → List (List Face) → Prop
  | _, [] => True
  | c, fs :: rest => GoodFrame c fs ∧ SceneWF (c + 1) rest

instance LowOverlap.decidable (faces : List Face) : Decidable (LowOverlap faces) := by
  unfold LowOverlap; exact inferInstance

instance GoodFrame.decidable (c : ℤ) (faces : List Face) : Decidable (GoodFrame c faces) := by
  unfold GoodFrame; exact inferInstance

instance SceneWF.decidable : (c : ℤ) → (scene : List (List Face)) → Decidable (SceneWF c scene)
  | _, [] => isTrue trivial
  | c, fs :: rest =>
    have : Decidable (SceneWF (c + 1) rest) := SceneWF.decidable (c + 1) rest
    inferInstanceAs (Decidable (GoodFrame c fs ∧ SceneWF (c + 1) rest))

/-- Invariant tying a candidate track to the frame list currently being
scanned (frame number `c`): track frames strictly increase; every track
member's frame is at most the last one's; the last frame is at most `c`;
and if the last track member already sits on frame `c`, it does not
overlap (above threshold) with any remaining detection of this frame. -/
def TrackInv (c : ℤ) (track faces : List Face) : Prop :=
  (track.map Face.frame).Pairwise (· < ·) ∧
  ∀ L, track.getLast? = some L →
    (∀ f ∈ track, f.frame ≤ L.frame) ∧ L.frame ≤ c ∧
    (L.frame = c → ∀ f ∈ faces,
      bb_intersection_over_union f.bbox L.bbox ≤ iou_thres)

/-- A candidate track all of whose frames lie strictly below `c`, with
strictly increasing frames, the last being the largest. -/
def TrackBelow (c : ℤ) (track : List Face) : Prop :=
  (track.map Face.frame).Pairwise (· < ·) ∧
  ∀ L, track.getLast? = some L → (∀ f ∈ track, f.frame ≤ L.frame) ∧ L.frame < c

/-- The multiset of detections of one frame list. -/
def face_mset (l : List Face) : Multiset Face := (l : Multiset Face)

/-- The multiset of all detections of a scene. -/
def msum (sceneFaces : List (List Face)) : Multiset Face :=
  (sceneFaces.map face_mset).sum

/-- Concrete box used by the witnesses. -/
def wbox : Box := ⟨0, 0, 10, 10⟩

/-- Concrete detection at frame `k` used by the witnesses. -/
def wface (k : ℤ) : Face := ⟨k, wbox, 1⟩

/-- Concrete tracker parameters used by the witnesses
(`num_failed_det = 10`, `min_track = 1`, `min_face_size = 1`). -/
def wargs : AssocArgs := ⟨10, 1, 1⟩

/-- Concrete three-frame scene used by the witnesses. -/
def wscene : List (List Face) := [[wface 0], [wface 1], [wface 2]]

/-- The track that `track_shot wargs wscene` emits. -/
def wtrack : TrackOut := ⟨[0, 1, 2], [wbox, wbox, wbox], [1, 1, 1]⟩

/-- Concrete raw face used by the witnesses for the detection stage. -/
def wraw : RawFace := ⟨some (0, 0, 10, 10), some 1⟩

/-- Concrete always-failing pipeline stage used by the C9 witness. -/
def wstage : Stage := fun s => (s, some 7)

/-!
## Theorems
-/

theorem inter_area_le_box_area (a b : Box) (ha : PosBox a) :
    inter_area a b ≤ box_area a := by
  rcases ha with ⟨hw, hh⟩
  have hw0 : (0 : ℚ) ≤ a.x2 - a.x1 := le_of_lt hw
  have hh0 : (0 : ℚ) ≤ a.y2 - a.y1 := le_of_lt hh
  have h1 : max 0 (min a.x2 b.x2 - max a.x1 b.x1) ≤ a.x2 - a.x1 := by
    apply max_le hw0
    exact sub_le_sub (min_le_left a.x2 b.x2) (le_max_left a.x1 b.x1)
  have h2 : max 0 (min a.y2 b.y2 - max a.y1 b.y1) ≤ a.y2 - a.y1 := by
    apply max_le hh0
    exact sub_le_sub (min_le_left a.y2 b.y2) (le_max_left a.y1 b.y1)
  have hn2 : (0 : ℚ) ≤ max 0 (min a.y2 b.y2 - max a.y1 b.y1) := le_max_left _ _
  calc inter_area a b
      ≤ (a.x2 - a.x1) * max 0 (min a.y2 b.y2 - max a.y1 b.y1) :=
        mul_le_mul_of_nonneg_right h1 hn2
    _ ≤ (a.x2 - a.x1) * (a.y2 - a.y1) := mul_le_mul_of_nonneg_left h2 hw0
    _ = box_area a := rfl

/-- **C6.** The IOU function of `FaceProcessor.bb_intersection_over_union`
is symmetric in its two arguments; on a box of positive area,
`IOU(A, A) = 1`; for boxes of positive area that do not overlap,
`IOU(A, B) = 0`; and in the `evalCol` variant the result is the
intersection area divided by box A's area alone. -/
theorem c6_iou_properties :
    (∀ A B : Box, bb_intersection_over_union A B = bb_intersection_over_union B A) ∧
    (∀ A : Box, PosBox A → bb_intersection_over_union A A = 1) ∧
    (∀ A B : Box, PosBox A → PosBox B → NonOverlapping A B →
      bb_intersection_over_union A B = 0) ∧
    (∀ A B : Box, bb_intersection_over_union A B true = inter_area A B / box_area A) := by
  refine ⟨?_, ?_, ?_, ?_⟩
  · intro A B
    simp only [bb_intersection_over_union, if_neg Bool.false_ne_true]
    rw [max_comm A.x1 B.x1, max_comm A.y1 B.y1, min_comm A.x2 B.x2, min_comm A.y2 B.y2]
    ring_nf
  · intro A hA
    rcases hA with ⟨hw, hh⟩
    simp only [bb_intersection_over_union, if_neg Bool.false_ne_true,
      max_self, min_self]
    rw [max_eq_right (le_of_lt hw), max_eq_right (le_of_lt hh)]
    have harea : (0 : ℚ) < (A.x2 - A.x1) * (A.y2 - A.y1) := mul_pos hw hh
    rw [show (A.x2 - A.x1) * (A.y2 - A.y1) + (A.x2 - A.x1) * (A.y2 - A.y1) -
        (A.x2 - A.x1) * (A.y2 - A.y1) = (A.x2 - A.x1) * (A.y2 - A.y1) by ring]
    exact div_self (ne_of_gt harea)
  · intro A B _ _ hn
    simp only [bb_intersection_over_union, if_neg Bool.false_ne_true]
    rcases hn with h | h
    · rw [max_eq_left (sub_nonpos.mpr h), zero_mul, zero_div]
    · rw [max_eq_left (sub_nonpos.mpr h), mul_zero, zero_div]
  · intro A B
    simp only [bb_intersection_over_union, if_pos rfl]
    rfl

/-- Witness for C6 at concrete boxes: the `10 × 10` box has IOU 1 with
itself, IOU 0 with a disjoint translate, and the `evalCol` variant agrees
with the intersection-over-A formula. -/
theorem c6_iou_properties_witness :
    bb_intersection_over_union wbox wbox = 1 ∧
    bb_intersection_over_union wbox ⟨20, 20, 30, 30⟩ = 0 ∧
    bb_intersection_over_union wbox ⟨20, 20, 30, 30⟩ true =
      inter_area wbox ⟨20, 20, 30, 30⟩ / box_area wbox := by
  refine ⟨?_, ?_, ?_⟩
  · exact c6_iou_properties.2.1 wbox (by constructor <;> norm_num [wbox])
  · exact c6_iou_properties.2.2.1 wbox ⟨20, 20, 30, 30⟩
      (by constructor <;> norm_num [wbox]) (by constructor <;> norm_num)
      (by left; show min wbox.x2 (30 : ℚ) ≤ max wbox.x1 20; norm_num [wbox])
  · exact c6_iou_properties.2.2.2 wbox ⟨20, 20, 30, 30⟩

theorem list_getD_drop (l : List ℚ) (n j : ℕ) :
    (l.drop n).getD j 0 = l.getD (n + j) 0 := by
  induction l generalizing n with
  | nil => simp
  | cons x xs ih =>
    cases n with
    | zero => simp
    | succ m =>
      rw [List.drop_succ_cons, Nat.succ_add, List.getD_cons_succ]
      exact ih m

theorem take_sum_getD (k : ℕ) (l : List ℚ) :
    (l.take k).sum = ((List.range k).map (fun j => l.getD j 0)).sum := by
  induction k generalizing l with
  | zero => simp
  | succ m ih =>
    cases l with
    | nil => simp
    | cons x xs =>
      rw [List.take_succ_cons, List.sum_cons, ih xs, List.range_succ_eq_map]
      simp [Function.comp_def]

theorem slice_sum (l : List ℚ) (lo k : ℕ) :
    ((l.drop lo).take k).sum = ((List.range k).map (fun j => l.getD (lo + j) 0)).sum := by
  rw [take_sum_getD]
  simp only [list_getD_drop]

/-- **C7.** The display score for local frame index `fidx` of a track is
the arithmetic mean of the half-open window
`score[max(fidx - 2, 0) : min(fidx + 3, len(score) - 1)]`; in particular,
on a five-element score series index `0` averages exactly indices
`0, 1, 2`, and index `4` (the last) averages indices `2, 3` only — the
half-open clamp excludes the final index. -/
theorem c7_smoothing_window :
    (∀ (score : List ℚ) (fidx : ℕ),
      smooth_score score fidx =
        ((List.range (win_len score fidx)).map
          (fun j => score.getD (win_lo fidx + j) 0)).sum / (win_len score fidx)) ∧
    (∀ a b c d e : ℚ, smooth_score [a, b, c, d, e] 0 = (a + b + c) / 3) ∧
    (∀ a b c d e : ℚ, smooth_score [a, b, c, d, e] 4 = (c + d) / 2) := by
  refine ⟨?_, ?_, ?_⟩
  · intro score fidx
    unfold smooth_score np_mean win_len win_hi win_lo
    rw [slice_sum]
    congr 1
    rw [List.length_take, List.length_drop]
    congr 1
    rcases le_total ((fidx : ℤ) - 2) 0 with hmax | hmax <;>
      rcases le_total ((fidx : ℤ) + 3) ((score.length : ℤ) - 1) with hmin | hmin <;>
      simp only [max_eq_right hmax, max_eq_left hmax, min_eq_left hmin,
        min_eq_right hmin] <;> omega
  · intro a b c d e
    unfold smooth_score
    norm_num [np_mean, show (3 : ℤ).toNat = 3 from rfl, List.take_succ_cons]
    ring
  · intro a b c d e
    unfold smooth_score
    norm_num [np_mean, show (2 : ℤ).toNat = 2 from rfl, List.take_succ_cons,
      List.drop_succ_cons]

theorem py_round_bounds (q : ℚ) :
    q - 1 / 2 ≤ (py_round_half_even q : ℚ) ∧ (py_round_half_even q : ℚ) ≤ q + 1 / 2 := by
  have h1 : ((⌊q⌋ : ℤ) : ℚ) ≤ q := Int.floor_le q
  have h2 : q < ⌊q⌋ + 1 := Int.lt_floor_add_one q
  simp only [py_round_half_even]
  split_ifs with ha hb hc <;> constructor <;> push_cast <;> linarith

theorem py_round_le_int (q : ℚ) (n : ℤ) (h : q ≤ n) : py_round_half_even q ≤ n := by
  have hb := (py_round_bounds q).2
  have h1 : (py_round_half_even q : ℚ) < (n : ℚ) + 1 := by linarith
  have h2 : py_round_half_even q < n + 1 := by exact_mod_cast h1
  omega

theorem py_round_nonneg (q : ℚ) (h : 0 ≤ q) : 0 ≤ py_round_half_even q := by
  have ha := (py_round_bounds q).1
  have h1 : (-1 : ℚ) < (py_round_half_even q : ℚ) := by linarith
  have h2 : (-1 : ℤ) < py_round_half_even q := by exact_mod_cast h1
  omega

/-- **C8.** Before scoring, `evaluate_network` computes
`length = min(audioLen / 100, videoLen / 25)` (seconds) and truncates the
audio features to `round(length * 100)` samples and the video features to
`round(length * 25)` samples (`round` being Python's half-to-even
rounding): the truncated lists have exactly those lengths. -/
theorem c8_feature_alignment {α β : Type} (audio_feature : List α) (video_feature : List β) :
    (((truncate_features audio_feature video_feature).1.length : ℤ) =
      py_round_half_even (min ((audio_feature.length : ℚ) / 100)
        ((video_feature.length : ℚ) / 25) * 100)) ∧
    (((truncate_features audio_feature video_feature).2.length : ℤ) =
      py_round_half_even (min ((audio_feature.length : ℚ) / 100)
        ((video_feature.length : ℚ) / 25) * 25)) := by
  have hL0 : (0 : ℚ) ≤ min ((audio_feature.length : ℚ) / 100) ((video_feature.length : ℚ) / 25) :=
    le_min (div_nonneg (Nat.cast_nonneg _) (by norm_num))
      (div_nonneg (Nat.cast_nonneg _) (by norm_num))
  have haud : min ((audio_feature.length : ℚ) / 100) ((video_feature.length : ℚ) / 25) * 100 ≤
      ((audio_feature.length : ℤ) : ℚ) := by
    have h := min_le_left ((audio_feature.length : ℚ) / 100) ((video_feature.length : ℚ) / 25)
    have := mul_le_mul_of_nonneg_right h (by norm_num : (0 : ℚ) ≤ 100)
    rw [div_mul_cancel₀ _ (by norm_num : (100 : ℚ) ≠ 0)] at this
    push_cast
    exact this
  have hvid : min ((audio_feature.length : ℚ) / 100) ((video_feature.length : ℚ) / 25) * 25 ≤
      ((video_feature.length : ℤ) : ℚ) := by
    have h := min_le_right ((audio_feature.length : ℚ) / 100) ((video_feature.length : ℚ) / 25)
    have := mul_le_mul_of_nonneg_right h (by norm_num : (0 : ℚ) ≤ 25)
    rw [div_mul_cancel₀ _ (by norm_num : (25 : ℚ) ≠ 0)] at this
    push_cast
    exact this
  have ha1 := py_round_le_int _ _ haud
  have ha0 := py_round_nonneg _ (mul_nonneg hL0 (by norm_num : (0 : ℚ) ≤ 100))
  have hv1 := py_round_le_int _ _ hvid
  have hv0 := py_round_nonneg _ (mul_nonneg hL0 (by norm_num : (0 : ℚ) ≤ 25))
  constructor
  · simp only [truncate_features, List.length_take]
    omega
  · simp only [truncate_features, List.length_take]
    omega

/-- **C1 (evaluating the code at the failing input).**  The literal
`duration_set = {1, 1, 1, 2, 2, 2, 3, 3, 4, 5, 6}` in `evaluate_network`
is a Python *set* literal: it deduplicates to the six distinct durations
`{1, 2, 3, 4, 5, 6}`, so the loop `for duration in duration_set` performs
six equally weighted scoring passes, not the eleven weighted passes the
specification describes. -/
theorem c1_duration_set_is_deduplicated :
    duration_set = [1, 2, 3, 4, 5, 6] ∧ duration_set.length = 6 := by
  constructor <;> rfl

/-- **C2 (evaluating the code at the failing input).**  When face
extraction raises on frame 0 of a two-frame video, the `continue` in the
exception handler of `detect_faces` skips `detections.append`, so the
returned list has a single entry — the entry for frame 1 sits at position
0, and there is no longer one entry per extracted frame.  (Third
conjunct: with no exception, the two frames do line up positionally.) -/
theorem c2_failed_frame_dropped :
    detect_faces [Except.error 3, Except.ok [wraw]] =
      [[{ frame := 1, bbox := ⟨0, 0, 10, 10⟩, conf := 1 }]] ∧
    (detect_faces [Except.error 3, Except.ok [wraw]]).length = 1 ∧
    detect_faces [Except.ok [], Except.ok [wraw]] =
      [[], [{ frame := 1, bbox := ⟨0, 0, 10, 10⟩, conf := 1 }]] := by
  refine ⟨?_, ?_, ?_⟩ <;>
    norm_num [detect_faces, detect_faces_go, detect_frame, wraw, List.filterMap]

/-- **C10.** Every detection emitted by the filtering loop of
`detect_faces` has confidence at least `0.5` and a box of strictly
positive width and height; consequently, for any two boxes with positive
width and height, both IOU denominators (`boxAArea` in the `evalCol`
variant and `boxAArea + boxBArea - interArea` in the default one) are
strictly positive. -/
theorem c10_detection_guarantees :
    (∀ (fidx : ℤ) (faces : List RawFace), ∀ d ∈ detect_frame fidx faces,
      1 / 2 ≤ d.conf ∧ PosBox d.bbox) ∧
    (∀ A B : Box, PosBox A → PosBox B →
      0 < box_area A ∧ 0 < box_area A + box_area B - inter_area A B) := by
  constructor
  · intro fidx faces d hd
    rw [detect_frame, List.mem_filterMap] at hd
    obtain ⟨face, hmem, heq⟩ := hd
    split at heq
    · exact Option.noConfusion heq
    · rename_i x y w h harea
      split_ifs at heq with hc hwh
      push_neg at hwh hc
      obtain ⟨hw, hh⟩ := hwh
      obtain rfl : _ = d := Option.some.inj heq
      refine ⟨hc, ?_, ?_⟩
      · show (0 : ℚ) < x + w - x
        linarith
      · show (0 : ℚ) < y + h - y
        linarith
  · intro A B hA hB
    have h1 := inter_area_le_box_area A B hA
    have hApos : 0 < box_area A := mul_pos hA.1 hA.2
    have hBpos : 0 < box_area B := mul_pos hB.1 hB.2
    exact ⟨hApos, by linarith⟩

/-- Witness for C10: the concrete raw face `wraw` passes the filter with
confidence `1` and a positive box, and the concrete `10 × 10` box gives
positive IOU denominators. -/
theorem c10_detection_guarantees_witness :
    (1 / 2 ≤ (Face.mk 0 ⟨0, 0, 10, 10⟩ 1).conf ∧ PosBox (Face.mk 0 ⟨0, 0, 10, 10⟩ 1).bbox) ∧
    (0 < box_area wbox ∧ 0 < box_area wbox + box_area wbox - inter_area wbox wbox) := by
  constructor
  · exact c10_detection_guarantees.1 0 [wraw] (Face.mk 0 ⟨0, 0, 10, 10⟩ 1)
      (by norm_num [detect_frame, wraw])
  · exact c10_detection_guarantees.2 wbox wbox
      (by constructor <;> norm_num [wbox]) (by constructor <;> norm_num [wbox])

theorem cleanup_cache_work (s : PipeState) : (cleanup_cache s).work = none := by
  cases h : s.work <;> simp [cleanup_cache, h]

/-- **C9.** If any stage run by `Pipeline.run` raises, the driver deletes
the run's whole working directory and re-raises the exception, so no
partial working-directory state survives a failed run; the constructor
tail of `Pipeline.__init__` applies the same cleanup-and-reraise policy
when building the detector, model or segmenter fails. -/
theorem c9_cleanup_on_failure :
    (∀ (stages : List Stage) (s : PipeState) (e : ℕ),
      (pipeline_run stages s).2 = some e → (pipeline_run stages s).1.work = none) ∧
    (∀ (ctors : List Stage) (s : PipeState) (e : ℕ),
      (pipeline_init ctors s).2 = some e → (pipeline_init ctors s).1.work = none) := by
  constructor
  · intro stages s e h
    cases hr : (run_try stages s).2 with
    | none => simp [pipeline_run, hr] at h
    | some e2 =>
      simp only [pipeline_run, hr]
      exact cleanup_cache_work _
  · intro ctors s e h
    cases hr : (run_try ctors (setup_paths s)).2 with
    | none => simp [pipeline_init, hr] at h
    | some e2 =>
      simp only [pipeline_init, hr]
      exact cleanup_cache_work _

/-- Witness for C9: a concrete failing stage on a concrete non-empty
working directory — after the failure the working directory is gone, both
for `run` and for the constructor tail of `__init__`. -/
theorem c9_cleanup_on_failure_witness :
    (pipeline_run [wstage] ⟨some [5]⟩).1.work = none ∧
    (pipeline_init [wstage] ⟨none⟩).1.work = none :=
  ⟨c9_cleanup_on_failure.1 [wstage] ⟨some [5]⟩ 7 rfl,
   c9_cleanup_on_failure.2 [wstage] ⟨none⟩ 7 rfl⟩

theorem msum_cons (x : List Face) (l : List (List Face)) :
    msum (x :: l) = (x : Multiset Face) + msum l := by
  simp [msum, face_mset]

theorem msum_nil : msum [] = 0 := rfl

theorem msum_eq_flatten (l : List (List Face)) : msum l = (l.flatten : Multiset Face) := by
  induction l with
  | nil => rfl
  | cons x rest ih =>
    rw [msum_cons, ih, List.flatten_cons, ← Multiset.coe_add]

/-- Every append performed by the inner association loop is paired with a
removal from the pool: the loop conserves the multiset of detections. -/
theorem shot_frame_loop_msum (args : AssocArgs) :
    ∀ (fuel : ℕ) (track faces : List Face) (i : ℕ),
      ((shot_frame_loop args fuel track faces i).1 : Multiset Face) +
        ((shot_frame_loop args fuel track faces i).2.1 : Multiset Face) =
      (track : Multiset Face) + (faces : Multiset Face) := by
  intro fuel
  induction fuel with
  | zero => intro track faces i; rfl
  | succ fuel ih =>
    intro track faces i
    simp only [shot_frame_loop]
    split_ifs with h htr hgap hiou
    · rw [ih, ← Multiset.coe_add, Multiset.coe_singleton, add_assoc, Multiset.singleton_add,
        ← Multiset.coe_erase, Multiset.cons_erase (Multiset.mem_coe.mpr (faces.get_mem i h))]
    · rw [ih, ← Multiset.coe_add, Multiset.coe_singleton, add_assoc, Multiset.singleton_add,
        ← Multiset.coe_erase, Multiset.cons_erase (Multiset.mem_coe.mpr (faces.get_mem i h))]
    · exact ih track faces (i + 1)
    · rfl
    · rfl

/-- One pass over the scene conserves the multiset of detections. -/
theorem shot_scan_msum (args : AssocArgs) :
    ∀ (scene : List (List Face)) (track : List Face),
      ((shot_scan args track scene).1 : Multiset Face) +
        msum (shot_scan args track scene).2 =
      (track : Multiset Face) + msum scene := by
  intro scene
  induction scene with
  | nil => intro track; simp [shot_scan, msum]
  | cons fs rest ih =>
    intro track
    simp only [shot_scan]
    rw [msum_cons, msum_cons]
    have hA := shot_frame_loop_msum args (fs.length + 1) track fs 0
    have hB := ih (shot_frame_loop args (fs.length + 1) track fs 0).1
    calc ((shot_scan args (shot_frame_loop args (fs.length + 1) track fs 0).1 rest).1 :
            Multiset Face) +
          (((shot_frame_loop args (fs.length + 1) track fs 0).2.1 : Multiset Face) +
            msum (shot_scan args (shot_frame_loop args (fs.length + 1) track fs 0).1 rest).2)
        = (((shot_scan args (shot_frame_loop args (fs.length + 1) track fs 0).1 rest).1 :
            Multiset Face) +
            msum (shot_scan args (shot_frame_loop args (fs.length + 1) track fs 0).1 rest).2) +
          ((shot_frame_loop args (fs.length + 1) track fs 0).2.1 : Multiset Face) := by
          abel
      _ = (((shot_frame_loop args (fs.length + 1) track fs 0).1 : Multiset Face) + msum rest) +
          ((shot_frame_loop args (fs.length + 1) track fs 0).2.1 : Multiset Face) := by
          rw [hB]
      _ = (((shot_frame_loop args (fs.length + 1) track fs 0).1 : Multiset Face) +
            ((shot_frame_loop args (fs.length + 1) track fs 0).2.1 : Multiset Face)) +
          msum rest := by abel
      _ = ((track : Multiset Face) + (fs : Multiset Face)) + msum rest := by rw [hA]
      _ = (track : Multiset Face) + ((fs : Multiset Face) + msum rest) := by abel

/-- The `while True` loop conserves detections: the multiset of all raw
pass tracks plus the final scene equals the initial scene. -/
theorem track_shot_loop_msum (args : AssocArgs) :
    ∀ (fuel : ℕ) (scene : List (List Face)),
      ((track_shot_loop args fuel scene).2.1.map face_mset).sum +
        msum (track_shot_loop args fuel scene).2.2 = msum scene := by
  intro fuel
  induction fuel with
  | zero => intro scene; simp [track_shot_loop]
  | succ fuel ih =>
    intro scene
    simp only [track_shot_loop]
    by_cases hempty : (shot_scan args [] scene).1 = []
    · rw [if_pos hempty]
      have hS := shot_scan_msum args scene []
      rw [hempty] at hS
      simpa using hS
    · rw [if_neg hempty]
      dsimp only
      have hS := shot_scan_msum args scene []
      have hI := ih (shot_scan args [] scene).2
      rw [List.map_cons, List.sum_cons, add_assoc, hI]
      simpa using hS

/-- The inner association loop only removes detections from the frame
list. -/
theorem shot_frame_loop_sublist (args : AssocArgs) :
    ∀ (fuel : ℕ) (track faces : List Face) (i : ℕ),
      List.Sublist (shot_frame_loop args fuel track faces i).2.1 faces := by
  intro fuel
  induction fuel with
  | zero => intro track faces i; exact List.Sublist.refl faces
  | succ fuel ih =>
    intro track faces i
    simp only [shot_frame_loop]
    split_ifs with h htr hgap hiou
    · exact (ih _ _ _).trans (faces.erase_sublist _)
    · exact (ih _ _ _).trans (faces.erase_sublist _)
    · exact ih track faces (i + 1)
    · exact List.Sublist.refl faces
    · exact List.Sublist.refl faces

/-- One pass leaves every frame list a sublist of what it was. -/
theorem shot_scan_sublist (args : AssocArgs) :
    ∀ (scene : List (List Face)) (track : List Face),
      List.Forall₂ List.Sublist (shot_scan args track scene).2 scene := by
  intro scene
  induction scene with
  | nil => intro track; exact List.Forall₂.nil
  | cons fs rest ih =>
    intro track
    simp only [shot_scan]
    exact List.Forall₂.cons (shot_frame_loop_sublist args (fs.length + 1) track fs 0) (ih _)

theorem mem_map_coe_sum_le (l : List (List Face)) (x : List Face) (hx : x ∈ l) :
    (x : Multiset Face) ≤ (l.map face_mset).sum := by
  induction l with
  | nil => cases hx
  | cons y ys ih =>
    simp only [List.map_cons, List.sum_cons]
    rcases List.mem_cons.mp hx with rfl | hmem
    · exact le_add_of_nonneg_right (Multiset.zero_le _)
    · exact (ih hmem).trans (le_add_of_nonneg_left (Multiset.zero_le _))

theorem pairwise_disjoint_of_nodup_sum (l : List (List Face))
    (h : ((l.map face_mset).sum).Nodup) :
    l.Pairwise (fun a b => ∀ x ∈ a, x ∉ b) := by
  induction l with
  | nil => exact List.Pairwise.nil
  | cons t rest ih =>
    simp only [List.map_cons, List.sum_cons] at h
    rw [Multiset.nodup_add] at h
    obtain ⟨h1, h2, h3⟩ := h
    refine List.Pairwise.cons ?_ (ih h2)
    intro b hb x hxt hxb
    have hx1 : x ∈ (t : Multiset Face) := Multiset.mem_coe.mpr hxt
    have hx2 : x ∈ (rest.map face_mset).sum :=
      Multiset.mem_of_le (mem_map_coe_sum_le rest b hb) (Multiset.mem_coe.mpr hxb)
    exact Multiset.disjoint_left.mp h3 hx1 hx2

/-- If the scene holds pairwise distinct detections, the raw pass tracks
of `track_shot` are pairwise disjoint: no detection is assigned twice. -/
theorem track_shot_passes_pairwise_disjoint (args : AssocArgs)
    (scene : List (List Face)) (h : scene.flatten.Nodup) :
    (track_shot_passes args scene).Pairwise (fun a b => ∀ x ∈ a, x ∉ b) := by
  have hcons := track_shot_loop_msum args (total_faces scene + 1) scene
  have hle : ((track_shot_passes args scene).map face_mset).sum ≤
      msum scene := by
    rw [← hcons]
    exact le_add_of_nonneg_right (Multiset.zero_le _)
  have hnd : (((track_shot_passes args scene).map face_mset).sum).Nodup :=
    Multiset.nodup_of_le hle (by rw [msum_eq_flatten]; exact Multiset.coe_nodup.mpr h)
  exact pairwise_disjoint_of_nodup_sum _ hnd

/-- **C5.** During greedy association within one shot:
(i) if the candidate track is empty, the detection at the current scan
position is adopted unconditionally as the seed and removed from the pool;
(ii) if the track is non-empty and the detection's frame is within
`num_failed_det` of the track's last frame, the detection is appended and
removed exactly when its IOU with the track's last box exceeds `0.5`
(the scan then continues, so the first qualifying detection in scan order
wins, not the best-IOU one), and is left in place otherwise;
(iii) if the gap exceeds `num_failed_det`, the scan of this frame stops
(`break`) with track and pool unchanged;
(iv) appends and removals balance: over the whole `while True` loop the
multiset of detections in all pass tracks plus the final pool equals the
initial pool, so
(v) when all detections are distinct, no detection ends up in two tracks. -/
theorem c5_greedy_association (args : AssocArgs) :
    (∀ (fuel : ℕ) (faces : List Face) (i : ℕ) (h : i < faces.length),
      shot_frame_loop args (fuel + 1) [] faces i =
        shot_frame_loop args fuel [faces.get ⟨i, h⟩]
          (faces.erase (faces.get ⟨i, h⟩)) (i + 1)) ∧
    (∀ (fuel : ℕ) (track : List Face) (htr : track ≠ []) (faces : List Face) (i : ℕ)
        (h : i < faces.length),
      (faces.get ⟨i, h⟩).frame - (track.getLast htr).frame ≤ (args.num_failed_det : ℤ) →
        (iou_thres <
            bb_intersection_over_union (faces.get ⟨i, h⟩).bbox (track.getLast htr).bbox →
          shot_frame_loop args (fuel + 1) track faces i =
            shot_frame_loop args fuel (track ++ [faces.get ⟨i, h⟩])
              (faces.erase (faces.get ⟨i, h⟩)) (i + 1)) ∧
        (bb_intersection_over_union (faces.get ⟨i, h⟩).bbox (track.getLast htr).bbox ≤
            iou_thres →
          shot_frame_loop args (fuel + 1) track faces i =
            shot_frame_loop args fuel track faces (i + 1))) ∧
    (∀ (fuel : ℕ) (track : List Face) (htr : track ≠ []) (faces : List Face) (i : ℕ)
        (h : i < faces.length),
      (args.num_failed_det : ℤ) < (faces.get ⟨i, h⟩).frame - (track.getLast htr).frame →
        shot_frame_loop args (fuel + 1) track faces i = (track, faces, true)) ∧
    (∀ (fuel : ℕ) (scene : List (List Face)),
      ((track_shot_loop args fuel scene).2.1.map face_mset).sum +
        msum (track_shot_loop args fuel scene).2.2 = msum scene) ∧
    (∀ scene : List (List Face), scene.flatten.Nodup →
      (track_shot_passes args scene).Pairwise (fun a b => ∀ x ∈ a, x ∉ b)) := by
  refine ⟨?_, ?_, ?_, track_shot_loop_msum args, track_shot_passes_pairwise_disjoint args⟩
  · intro fuel faces i h
    simp only [shot_frame_loop]
    rw [dif_pos h, dif_pos trivial]
    rfl
  · intro fuel track htr faces i h hgap
    constructor
    · intro hiou
      simp only [shot_frame_loop]
      rw [dif_pos h, dif_neg htr, if_pos hgap, if_pos hiou]
    · intro hiou
      simp only [shot_frame_loop]
      rw [dif_pos h, dif_neg htr, if_pos hgap, if_neg (not_lt.mpr hiou)]
  · intro fuel track htr faces i h hgt
    simp only [shot_frame_loop]
    rw [dif_pos h, dif_neg htr, if_neg (not_le.mpr hgt)]

/-- Witness for C5: the seed step on a concrete one-face pool, the
conservation equation and the pairwise disjointness at the concrete
three-frame scene `wscene`. -/
theorem c5_greedy_association_witness :
    (shot_frame_loop wargs 1 [] [wface 0] 0 =
      shot_frame_loop wargs 0 [wface 0] ([wface 0].erase (wface 0)) 1) ∧
    (((track_shot_loop wargs 4 wscene).2.1.map face_mset).sum +
      msum (track_shot_loop wargs 4 wscene).2.2 = msum wscene) ∧
    (track_shot_passes wargs wscene).Pairwise (fun a b => ∀ x ∈ a, x ∉ b) := by
  refine ⟨?_, ?_, ?_⟩
  · exact (c5_greedy_association wargs).1 0 [wface 0] 0 (by simp)
  · exact (c5_greedy_association wargs).2.2.2.1 4 wscene
  · refine (c5_greedy_association wargs).2.2.2.2 wscene ?_
    simp [wscene, wface, List.Nodup]

theorem low_overlap_symm : Symmetric (fun a b : Face =>
    bb_intersection_over_union a.bbox b.bbox ≤ iou_thres ∧
    bb_intersection_over_union b.bbox a.bbox ≤ iou_thres) :=
  fun _ _ h => ⟨h.2, h.1⟩

theorem low_overlap_pair {faces : List Face} (hnd : faces.Nodup) (hlo : LowOverlap faces)
    {f g : Face} (hf : f ∈ faces.erase g) (hg : g ∈ faces) :
    bb_intersection_over_union f.bbox g.bbox ≤ iou_thres := by
  have hmem := hnd.mem_erase_iff.mp hf
  exact (List.Pairwise.forall low_overlap_symm hlo hmem.2 hg hmem.1).1

/-- The inner loop preserves the association invariant: the candidate
track keeps strictly increasing frames bounded by the current frame
number, and once its last member sits on the current frame no remaining
detection of this frame can be appended. -/
theorem shot_frame_loop_invariant (args : AssocArgs) (c : ℤ) :
    ∀ (fuel : ℕ) (track faces : List Face) (i : ℕ),
      faces.Nodup → (∀ f ∈ faces, f.frame = c) → LowOverlap faces →
      TrackInv c track faces →
      TrackInv c (shot_frame_loop args fuel track faces i).1
        (shot_frame_loop args fuel track faces i).2.1 := by
  intro fuel
  induction fuel with
  | zero => intro track faces i _ _ _ hinv; exact hinv
  | succ fuel ih =>
    intro track faces i hnd hfc hlo hinv
    simp only [shot_frame_loop]
    split_ifs with h htr hgap hiou
    · subst htr
      rw [List.nil_append]
      have hface : faces.get ⟨i, h⟩ ∈ faces := faces.get_mem i h
      apply ih
      · exact hnd.erase _
      · intro f hf; exact hfc f (List.mem_of_mem_erase hf)
      · exact List.Pairwise.sublist (faces.erase_sublist _) hlo
      · refine ⟨by simp, ?_⟩
        intro L hL
        simp only [List.getLast?_singleton] at hL
        obtain rfl := Option.some.inj hL
        refine ⟨?_, le_of_eq (hfc _ hface), ?_⟩
        · intro f hf
          rw [List.mem_singleton] at hf
          subst hf
          exact le_refl _
        · intro _ f hf
          exact low_overlap_pair hnd hlo hf hface
    · have hface : faces.get ⟨i, h⟩ ∈ faces := faces.get_mem i h
      have hL? : track.getLast? = some (track.getLast htr) :=
        List.getLast?_eq_getLast track htr
      obtain ⟨hAll, hLe, hD⟩ := hinv.2 _ hL?
      rcases eq_or_lt_of_le hLe with hLc | hLlt
      · exact absurd hiou (not_lt.mpr (hD hLc _ hface))
      · apply ih
        · exact hnd.erase _
        · intro f hf; exact hfc f (List.mem_of_mem_erase hf)
        · exact List.Pairwise.sublist (faces.erase_sublist _) hlo
        · refine ⟨?_, ?_⟩
          · rw [List.map_append, List.pairwise_append]
            refine ⟨hinv.1, by simp, ?_⟩
            intro a ha b hb
            rw [List.mem_map] at ha
            obtain ⟨f, hf, rfl⟩ := ha
            simp only [List.map_cons, List.map_nil, List.mem_singleton] at hb
            subst hb
            calc f.frame ≤ (track.getLast htr).frame := hAll f hf
              _ < c := hLlt
              _ = (faces.get ⟨i, h⟩).frame := (hfc _ hface).symm
          · intro L hL
            rw [List.getLast?_concat] at hL
            obtain rfl := Option.some.inj hL
            refine ⟨?_, le_of_eq (hfc _ hface), ?_⟩
            · intro f hf
              rcases List.mem_append.mp hf with hf | hf
              · calc f.frame ≤ (track.getLast htr).frame := hAll f hf
                  _ ≤ c := hLe
                  _ = (faces.get ⟨i, h⟩).frame := (hfc _ hface).symm
              · rw [List.mem_singleton] at hf
                subst hf
                exact le_refl _
            · intro _ f hf
              exact low_overlap_pair hnd hlo hf hface
    · exact ih track faces (i + 1) hnd hfc hlo hinv
    · exact hinv
    · exact hinv

/-- Scanning a well-formed scene from a track strictly below its first
frame yields a track with strictly increasing frames strictly below the
frame following the scene. -/
theorem shot_scan_below (args : AssocArgs) :
    ∀ (scene : List (List Face)) (c : ℤ) (track : List Face),
      SceneWF c scene → TrackBelow c track →
      TrackBelow (c + scene.length) (shot_scan args track scene).1 := by
  intro scene
  induction scene with
  | nil =>
    intro c track _ htb
    simpa [shot_scan] using htb
  | cons fs rest ih =>
    intro c track hWF htb
    have hgf : GoodFrame c fs := hWF.1
    have hrest : SceneWF (c + 1) rest := hWF.2
    simp only [shot_scan]
    have hinv : TrackInv c track fs := by
      refine ⟨htb.1, ?_⟩
      intro L hL
      obtain ⟨hAll, hlt⟩ := htb.2 L hL
      exact ⟨hAll, le_of_lt hlt, fun hc => absurd hc (ne_of_lt hlt)⟩
    have h1 := shot_frame_loop_invariant args c (fs.length + 1) track fs 0
      hgf.1 hgf.2.1 hgf.2.2 hinv
    have htb1 : TrackBelow (c + 1) (shot_frame_loop args (fs.length + 1) track fs 0).1 := by
      refine ⟨h1.1, ?_⟩
      intro L hL
      obtain ⟨hAll, hLe, _⟩ := h1.2 L hL
      exact ⟨hAll, by omega⟩
    have h2 := ih (c + 1) _ hrest htb1
    have hc : (c + 1) + (rest.length : ℤ) = c + ((fs :: rest).length : ℤ) := by
      push_cast [List.length_cons]
      ring
    rwa [hc] at h2

theorem good_frame_sublist {c : ℤ} {l1 l2 : List Face} (h : List.Sublist l1 l2)
    (hgf : GoodFrame c l2) : GoodFrame c l1 :=
  ⟨hgf.1.sublist h, fun f hf => hgf.2.1 f (h.subset hf),
    List.Pairwise.sublist h hgf.2.2⟩

theorem scene_wf_of_sublist :
    ∀ {l1 l2 : List (List Face)}, List.Forall₂ List.Sublist l1 l2 →
      ∀ c, SceneWF c l2 → SceneWF c l1 := by
  intro l1 l2 h
  induction h with
  | nil => intro c _; trivial
  | cons hsub htail ih =>
    intro c hwf
    exact ⟨good_frame_sublist hsub hwf.1, ih (c + 1) hwf.2⟩

theorem pairwise_lt_length_bound :
    ∀ (l : List ℤ) (lo hi : ℤ), l.Pairwise (· < ·) → (∀ x ∈ l, lo ≤ x ∧ x ≤ hi) →
      l = [] ∨ (l.length : ℤ) ≤ hi - lo + 1 := by
  intro l
  induction l with
  | nil => intro lo hi _ _; exact Or.inl rfl
  | cons x t ih =>
    intro lo hi hp hb
    right
    obtain ⟨hx, hpt⟩ := List.pairwise_cons.mp hp
    have hxb := hb x (List.mem_cons_self x t)
    have ht : ∀ y ∈ t, x + 1 ≤ y ∧ y ≤ hi := fun y hy =>
      ⟨Int.add_one_le_iff.mpr (hx y hy), (hb y (List.mem_cons_of_mem x hy)).2⟩
    rcases ih (x + 1) hi hpt ht with rfl | hlen
    · simp
      omega
    · rw [List.length_cons]
      push_cast
      omega

theorem arange_go_length : ∀ (n : ℕ) (a : ℤ), (arange_go a n).length = n
  | 0, _ => rfl
  | n + 1, a => by
    rw [show arange_go a (n + 1) = a :: arange_go (a + 1) n from rfl, List.length_cons,
      arange_go_length n (a + 1)]

theorem arange_go_chain : ∀ (n : ℕ) (a : ℤ),
    (arange_go a n).Chain' (fun p q => q = p + 1)
  | 0, _ => List.chain'_nil
  | n + 1, a => by
    rw [show arange_go a (n + 1) = a :: arange_go (a + 1) n from rfl, List.chain'_cons']
    refine ⟨?_, arange_go_chain n (a + 1)⟩
    intro y hy
    cases n with
    | zero => simp [arange_go] at hy
    | succ k =>
      rw [show arange_go (a + 1) (k + 1) = (a + 1) :: arange_go (a + 1 + 1) k from rfl] at hy
      simp at hy
      omega

theorem arange_go_head (a : ℤ) (n : ℕ) : (arange_go a (n + 1)).head? = some a := rfl

theorem arange_go_getLast : ∀ (n : ℕ) (a : ℤ),
    (arange_go a (n + 1)).getLast? = some (a + n)
  | 0, a => by simp [arange_go]
  | n + 1, a => by
    rw [show arange_go a (n + 1 + 1) = a :: (a + 1) :: arange_go (a + 1 + 1) n from rfl,
      List.getLast?_cons_cons,
      show (a + 1) :: arange_go (a + 1 + 1) n = arange_go (a + 1) (n + 1) from rfl,
      arange_go_getLast n (a + 1)]
    congr 1
    push_cast
    ring

/-- Core facts about an emitted (interpolated) track built from a raw
track with strictly increasing frames: its frame list is the full integer
range from first to last frame. -/
theorem interp_track_props (args : AssocArgs) {cTop : ℤ} (T : List Face)
    (hne : T ≠ []) (htb : TrackBelow cTop T) (hlen : args.min_track < T.length) :
    (interp_track T).frame.Chain' (fun p q => q = p + 1) ∧
    (∃ a b, (interp_track T).frame.head? = some a ∧
      (interp_track T).frame.getLast? = some b ∧
      ((interp_track T).frame.length : ℤ) = b - a + 1) ∧
    args.min_track < (interp_track T).frame.length := by
  cases T with
  | nil => exact absurd rfl hne
  | cons hd rest =>
    have hL? : (hd :: rest).getLast? =
        some ((hd :: rest).getLast (List.cons_ne_nil hd rest)) :=
      List.getLast?_eq_getLast _ _
    obtain ⟨hAll, _⟩ := htb.2 _ hL?
    set L := (hd :: rest).getLast (List.cons_ne_nil hd rest) with hLdef
    have hhead : ((hd :: rest).map Face.frame).headD 0 = hd.frame := by
      rw [List.map_cons, List.headD_cons]
    have hlast : ((hd :: rest).map Face.frame).getLastD 0 = L.frame := by
      rw [List.getLastD_eq_getLast?, List.getLast?_map, hL?]
      rfl
    have hframe : (interp_track (hd :: rest)).frame = arangeZ hd.frame L.frame := by
      show arangeZ (((hd :: rest).map Face.frame).headD 0)
        (((hd :: rest).map Face.frame).getLastD 0) = _
      rw [hhead, hlast]
    have hab : hd.frame ≤ L.frame := hAll hd (List.mem_cons_self hd rest)
    have hbound : ((hd :: rest).length : ℤ) ≤ L.frame - hd.frame + 1 := by
      have hmem : ∀ x ∈ (hd :: rest).map Face.frame,
          hd.frame ≤ x ∧ x ≤ L.frame := by
        intro x hx
        rw [List.mem_map] at hx
        obtain ⟨f, hf, rfl⟩ := hx
        constructor
        · rcases List.mem_cons.mp hf with rfl | hf2
          · exact le_refl _
          · have hpw := htb.1
            rw [List.map_cons, List.pairwise_cons] at hpw
            exact le_of_lt (hpw.1 f.frame (List.mem_map_of_mem Face.frame hf2))
        · exact hAll f hf
      rcases pairwise_lt_length_bound ((hd :: rest).map Face.frame) hd.frame L.frame
          htb.1 hmem with hnil | hlen2
      · exact absurd hnil (by simp)
      · rwa [List.length_map] at hlen2
    have hn : (L.frame + 1 - hd.frame).toNat = (L.frame - hd.frame).toNat + 1 := by
      omega
    refine ⟨?_, ⟨hd.frame, L.frame, ?_, ?_, ?_⟩, ?_⟩
    · rw [hframe]
      exact arange_go_chain _ _
    · rw [hframe]
      show (arange_go hd.frame (L.frame + 1 - hd.frame).toNat).head? = some hd.frame
      rw [hn]
      exact arange_go_head _ _
    · rw [hframe]
      show (arange_go hd.frame (L.frame + 1 - hd.frame).toNat).getLast? = some L.frame
      rw [hn, arange_go_getLast]
      congr 1
      omega
    · rw [hframe]
      show ((arange_go hd.frame (L.frame + 1 - hd.frame).toNat).length : ℤ) =
        L.frame - hd.frame + 1
      rw [arange_go_length]
      omega
    · rw [hframe]
      show args.min_track < (arange_go hd.frame (L.frame + 1 - hd.frame).toNat).length
      rw [arange_go_length]
      omega

/-- Every track emitted by the `while True` loop on a well-formed scene
has gapless, strictly increasing frames and length above `min_track`. -/
theorem track_shot_loop_emitted (args : AssocArgs) :
    ∀ (fuel : ℕ) (scene : List (List Face)) (c : ℤ), SceneWF c scene →
      ∀ t ∈ (track_shot_loop args fuel scene).1,
        t.frame.Chain' (fun p q => q = p + 1) ∧
        (∃ a b, t.frame.head? = some a ∧ t.frame.getLast? = some b ∧
          (t.frame.length : ℤ) = b - a + 1) ∧
        args.min_track < t.frame.length := by
  intro fuel
  induction fuel with
  | zero => intro scene c _ t ht; simp [track_shot_loop] at ht
  | succ fuel ih =>
    intro scene c hWF t ht
    simp only [track_shot_loop] at ht
    by_cases hempty : (shot_scan args [] scene).1 = []
    · rw [if_pos hempty] at ht
      simp at ht
    · rw [if_neg hempty] at ht
      dsimp only at ht
      rw [List.mem_append] at ht
      rcases ht with ht | ht
      · by_cases hlen : args.min_track < (shot_scan args [] scene).1.length
        · rw [if_pos hlen] at ht
          by_cases hsize : track_size_ok args (interp_track (shot_scan args [] scene).1) = true
          · rw [if_pos hsize] at ht
            rw [List.mem_singleton] at ht
            subst ht
            have htb : TrackBelow (c + scene.length) (shot_scan args [] scene).1 := by
              refine shot_scan_below args scene c [] hWF ⟨by simp, ?_⟩
              intro L hL
              simp at hL
            exact interp_track_props args _ hempty htb hlen
          · rw [if_neg hsize] at ht
            simp at ht
        · rw [if_neg hlen] at ht
          simp at ht
      · exact ih (shot_scan args [] scene).2 c
          (scene_wf_of_sublist (shot_scan_sublist args scene []) c hWF) t ht

/-- **C4.** On a well-formed scene (detections listed per frame in order,
no duplicates, no same-frame detections overlapping above the IOU
threshold), every track emitted by `track_shot` has a frame sequence that
increases strictly by 1 with no internal gaps, its length equals
`frames[-1] - frames[0] + 1`, and its length is strictly greater than
`min_track`. -/
theorem c4_track_invariants (args : AssocArgs) (c : ℤ) (scene : List (List Face))
    (hWF : SceneWF c scene) :
    ∀ t ∈ track_shot args scene,
      t.frame.Chain' (fun p q => q = p + 1) ∧
      (∃ a b, t.frame.head? = some a ∧ t.frame.getLast? = some b ∧
        (t.frame.length : ℤ) = b - a + 1) ∧
      args.min_track < t.frame.length :=
  track_shot_loop_emitted args (total_faces scene + 1) scene c hWF

set_option maxHeartbeats 3200000 in
/-- Concrete evaluation of `track_shot` on the witness scene: the three
stacked detections become one interpolated track. -/
theorem track_shot_wscene_eval : track_shot wargs wscene = [wtrack] := by
  norm_num [track_shot, track_shot_full, total_faces, wscene, wface, wbox, wargs,
    track_shot_loop, shot_scan, shot_frame_loop, interp_track, arangeZ, arange_go,
    interp_at, track_size_ok, np_mean, iou_thres, bb_intersection_over_union,
    List.erase, List.getLast, wtrack]
  rw [if_neg (List.cons_ne_nil _ _)]

/-- Witness for C4 at the concrete scene `wscene`: the emitted track has
frames `[0, 1, 2]`, length `3 = 2 - 0 + 1`, above `min_track = 1`. -/
theorem c4_track_invariants_witness :
    wtrack.frame.Chain' (fun p q => q = p + 1) ∧
    (∃ a b, wtrack.frame.head? = some a ∧ wtrack.frame.getLast? = some b ∧
      (wtrack.frame.length : ℤ) = b - a + 1) ∧
    wargs.min_track < wtrack.frame.length :=
  c4_track_invariants wargs 0 wscene (by decide) wtrack
    (by rw [track_shot_wscene_eval]; exact List.mem_singleton.mpr rfl)

/-- **C3.** A shot whose length is below `min_track` is skipped before
track-building runs: `track_faces` emits no tracks for it and leaves the
detections untouched. -/
theorem c3_short_shot_skipped (args : AssocArgs) (s e : ℕ) (rest : List (ℕ × ℕ))
    (dets : List (List Face)) (h : (e : ℤ) - (s : ℤ) < (args.min_track : ℤ)) :
    track_faces_go args ((s, e) :: rest) dets = track_faces_go args rest dets ∧
    track_faces args [(s, e)] dets = [] := by
  constructor
  · simp only [track_faces_go]
    rw [if_neg (not_le.mpr h)]
  · simp only [track_faces, track_faces_go]
    rw [if_neg (not_le.mpr h)]

/-- Witness for C3: a one-frame shot with `min_track = 1` is skipped. -/
theorem c3_short_shot_skipped_witness :
    track_faces_go wargs [(0, 0)] [] = track_faces_go wargs [] [] ∧
    track_faces wargs [(0, 0)] [] = [] :=
  c3_short_shot_skipped wargs 0 0 [] [] (by norm_num [wargs])

end TalkNetASD
